import Mathlib

/-!
Verification development for the ProMis core pipeline.

The Python source is shallowly embedded:
* the logic-program scanner (`StaRMap._get_mentioned_relations` in
  `src/promis/star_map.py` and the identical `ProMis.mentioned_relations` in
  `src/promis/promis.py`) is embedded as an executable regular-expression
  matcher over lists of characters, together with a left-to-right
  non-overlapping scan that mirrors `re.finditer`;
* `ProMis.solve` is embedded as the batching / program-emission / flattening
  pipeline, with the external HPLP solver abstracted as a function from
  program strings to lists of results;
* `StaRMap.add_support_points` is embedded with the map filter, the feature
  perturbation (`CartesianMap.sample`) and the relation kernel
  (`Relation.compute_parameters`) abstracted as function parameters; a kernel
  returning `none` models the Python exception path;
* `ScalarRelation` and `Over` from `src/promis/logic/spatial/` are embedded
  with rational numbers in place of floating point, and the numeric
  formatting of Python f-strings abstracted as a rendering function.
-/

/-! ### Character classes of the Python regular expressions

Python `\w` and `\s` are modelled on their ASCII fragment; the logic programs
of this repository are ASCII. -/

def isWordChar (c : Char) : Bool := c.isAlphanum || c == '_'

def isSpaceChar (c : Char) : Bool :=
  c == ' ' || c == '\t' || c == '\n' || c == '\r' || c == '\x0b' || c == '\x0c'

/-- The single-quote character used by the regex branch for quoted atoms. -/
def quoteChar : Char := Char.ofNat 39

/-- The double-quote character, referenced by the quote-stripping code. -/
def dquoteChar : Char := Char.ofNat 34

/-- Removes the literal `p` from the front of `s`, or fails. -/
def dropLit : List Char → List Char → Option (List Char)
  | [], s => some s
  | _ :: _, [] => none
  | p :: ps, c :: cs => if p = c then dropLit ps cs else none

/-- The capture group of the arity-2 pattern, regex `((?:'\w*')|(?:\w+))`:
either a single-quoted word (quotes included in the captured text, as in the
Python group) or a nonempty bareword.  Returns the captured text and the
remaining input.  The two regex branches cannot interact through
backtracking because the quote character is not a word character. -/
def matchGroup : List Char → Option (List Char × List Char)
  | [] => none
  | c :: cs =>
    if c = quoteChar then
      match cs.dropWhile isWordChar with
      | d :: rest =>
        if d = quoteChar then some (c :: (cs.takeWhile isWordChar ++ [d]), rest)
        else none
      | [] => none
    else
      if ((c :: cs).takeWhile isWordChar).isEmpty then none
      else some ((c :: cs).takeWhile isWordChar, (c :: cs).dropWhile isWordChar)

/-- The quote-stripping step of the scanner:
`if location_type[0] in "'\"": location_type = location_type[1:-1]`. -/
def stripQuotes (g : List Char) : List Char :=
  match g with
  | [] => []
  | c :: _ => if c = quoteChar ∨ c = dquoteChar then (g.drop 1).dropLast else g

/-- The arity-1 pattern `({name})\(X\)`.  The captured relation name is always
the literal `name`, so only the remaining input is returned. -/
def matchRelOne (name : List Char) (s : List Char) : Option (List Char × List Char) :=
  match dropLit (name ++ ['(', 'X', ')']) s with
  | some rest => some ([], rest)
  | none => none

/-- The arity-2 pattern `({name})\(X,\s*((?:'\w*')|(?:\w+))\s*\)`.  Returns the
raw capture group (quotes included, as in `match.group(2)`) and the remaining
input.  Note that the pattern requires the comma to directly follow `X`. -/
def matchRelTwo (name : List Char) (s : List Char) : Option (List Char × List Char) :=
  match dropLit (name ++ ['(', 'X', ',']) s with
  | none => none
  | some s1 =>
    match matchGroup (s1.dropWhile isSpaceChar) with
    | none => none
    | some (g, s3) =>
      match s3.dropWhile isSpaceChar with
      | ')' :: rest => some (g, rest)
      | _ => none

/-! ### The finditer scan

Python `re.finditer` yields the leftmost matches from left to right, resuming
after the end of each match.  The scan is written with explicit fuel so that
it is structurally recursive and evaluates inside the kernel; every pattern of
the scanner consumes at least one character per match, so fuel equal to the
length of the input is always sufficient (`reScanFuel_stable`). -/

def reScanFuel {β : Type} (m : List Char → Option (β × List Char)) :
    Nat → List Char → List β
  | 0, _ => []
  | _ + 1, [] => []
  | fuel + 1, c :: tail =>
    match m (c :: tail) with
    | some (v, rest) => v :: reScanFuel m fuel (tail.drop (tail.length - rest.length))
    | none => reScanFuel m fuel tail

def reScan {β : Type} (m : List Char → Option (β × List Char)) (s : List Char) : List β :=
  reScanFuel m s.length s

/-- Variant of the scan that also records the start position of each match. -/
def reScanPosFuel {β : Type} (m : List Char → Option (β × List Char)) :
    Nat → Nat → List Char → List (Nat × β)
  | 0, _, _ => []
  | _ + 1, _, [] => []
  | fuel + 1, pos, c :: tail =>
    match m (c :: tail) with
    | some (v, rest) =>
      (pos, v) :: reScanPosFuel m fuel (pos + ((c :: tail).length - rest.length))
        (tail.drop (tail.length - rest.length))
    | none => reScanPosFuel m fuel (pos + 1) tail

def reScanPos {β : Type} (m : List Char → Option (β × List Char)) (pos : Nat)
    (s : List Char) : List (Nat × β) :=
  reScanPosFuel m s.length pos s

/-! ### The scanner

The registry of relations known to a `StaRMap` maps relation names to
arities.  Modelled from the spec: the source classes `Distance`, `Over` and
`Depth` expose `arity()` as 2, 2 and 1 respectively (the method bodies are
outside `src/`); the registry type only admits arities 1 and 2, since the
scanner raises for any other arity before emitting anything for it. -/

inductive RelArity : Type
  | one : RelArity
  | two : RelArity
deriving DecidableEq

def relMatcher (name : String) (arity : RelArity) :
    List Char → Option (List Char × List Char) :=
  match arity with
  | .one => matchRelOne name.toList
  | .two => matchRelTwo name.toList

/-- Processing of one regex match: `match.group(1)` is always the registered
name, so the `landscape` test is a test on `name`; for arity 2 the capture
group has its surrounding quotes removed. -/
def relEmit (name : String) (arity : RelArity) (g : List Char) :
    Option (String × Option String) :=
  if name = "landscape" then none
  else
    match arity with
    | .one => some (name, none)
    | .two => some (name, some (String.mk (stripQuotes g)))

/-- All pairs contributed by one registered relation name, in the order
`re.finditer` produces them. -/
def scanRelation (logic : List Char) (name : String) (arity : RelArity) :
    List (String × Option String) :=
  (reScan (relMatcher name arity) logic).filterMap (relEmit name arity)

/-- Position-annotated variant of `scanRelation`. -/
def scanRelationPos (logic : List Char) (name : String) (arity : RelArity) :
    List (Nat × (String × Option String)) :=
  (reScanPos (relMatcher name arity) 0 logic).filterMap
    (fun pg => (relEmit name arity pg.2).map (fun v => (pg.1, v)))

/-- The scanner `StaRMap._get_mentioned_relations` (star_map.py, lines
258-295), identical to `ProMis.mentioned_relations` (promis.py, lines
123-159): for each registered relation name, all regex matches over the whole
program are appended in turn. -/
def mentionedRelations (registry : List (String × RelArity)) (logic : String) :
    List (String × Option String) :=
  (registry.map (fun e => scanRelation logic.toList e.1 e.2)).flatten

/-- One possible iteration order of the registry.  The source iterates the
Python set `{"over", "distance", "depth"}` whose order is unspecified
(hash-dependent); the insertion order of `clear_relations` is used here. -/
def defaultRegistry : List (String × RelArity) :=
  [("over", RelArity.two), ("distance", RelArity.two), ("depth", RelArity.one)]

/-- Modelled from the spec: "Output: a list of (relation_name,
location_type_or_None) pairs referenced by the program, in source order, with
duplicates permitted."  A single left-to-right scan of the program text that
tries every registered relation at each position, so the emitted pairs follow
the order of the occurrences in the text. -/
def mentionedRelationsSourceOrder (registry : List (String × RelArity))
    (logic : String) : List (String × Option String) :=
  reScan
    (fun s =>
      registry.findSome? (fun e =>
        (relMatcher e.1 e.2 s).bind (fun gr =>
          (relEmit e.1 e.2 gr.1).map (fun v => (v, gr.2)))))
    logic.toList

/-! ### Shape of a well-formed arity-2 occurrence

Claim-side vocabulary for the amended C4: a program is decomposed into
separator texts and occurrences `name(X,` sp1 atom sp2 `)`, where the atom is
a bareword or a single-quoted word.  The separators must contain no further
start of the literal `name(X,`, so the decomposition lists every occurrence. -/

/-- Modelled from the claim wording: `T` is a bareword (nonempty, word
characters only) or a single-quoted atom (a possibly empty word between two
single quotes). -/
def isAtomArg : List Char → Bool
  | [] => false
  | c :: cs =>
    if c = quoteChar then cs.getLast? == some quoteChar && cs.dropLast.all isWordChar
    else (c :: cs).all isWordChar

/-- Modelled from the claim wording: the atom with its quotes removed. -/
def atomValue : List Char → List Char
  | [] => []
  | c :: cs => if c = quoteChar then cs.dropLast else c :: cs

/-- The text of one occurrence `name(X,` sp1 atom sp2 `)`, with
`o = (sp1, atom, sp2)`. -/
def occChunk (name : String) (o : List Char × List Char × List Char) : List Char :=
  (name.toList ++ ['(', 'X', ',']) ++ (o.1 ++ (o.2.1 ++ (o.2.2 ++ [')'])))

/-- A program text assembled from separator texts and occurrences: each list
entry `(sep, o)` contributes `sep` followed by the occurrence `o`, and
`final` is the trailing text. -/
def buildProgram (name : String) :
    List (List Char × (List Char × List Char × List Char)) → List Char → List Char
  | [], final => final
  | so :: rest, final => so.1 ++ (occChunk name so.2 ++ buildProgram name rest final)

/-- Decides that no position strictly inside `sep` (followed by the text `t`)
starts with the literal `name(X,` — i.e. `sep` hides no further occurrence
start. -/
def inertChunk (name : String) (sep t : List Char) : Bool :=
  sep.tails.all
    (fun v => v.isEmpty || !((name.toList ++ ['(', 'X', ',']).isPrefixOf (v ++ t)))

/-- Decides that every separator of a decomposition (and the trailing text)
contains no start of the literal `name(X,`, so the decomposition lists every
occurrence of the pattern in the assembled program. -/
def sepsInert (name : String) :
    List (List Char × (List Char × List Char × List Char)) → List Char → Bool
  | [], final => inertChunk name final []
  | so :: rest, final =>
    inertChunk name so.1 (occChunk name so.2 ++ buildProgram name rest final)
      && sepsInert name rest final

/-! ### Cartesian collections

A `CartesianCollection` is an ordered sequence of points with one value per
point (`promis.geo`; the class itself is outside `src/`, its interface is
used by the core).  Coordinates are rationals in place of floating point. -/

structure CartesianCollection (V : Type) where
  origin : ℚ × ℚ
  points : List (ℚ × ℚ)
  values : List V
deriving Repr

/-! ### The ProMis engine (`src/promis/promis.py`) -/

/-- The query emitted for target point `index`:
`f"query(landscape(x_{index})).\n"`. -/
def queryString (index : Nat) : String :=
  "query(landscape(x_" ++ toString index ++ ")).\n"

/-- Fuel-driven chunking of a list of indices.  `toBatches bs fuel l` cuts `l`
into consecutive chunks of size `bs`; with `1 ≤ bs`, fuel `l.length` is always
sufficient. -/
def toBatches (bs : Nat) : Nat → List Nat → List (List Nat)
  | 0, _ => []
  | _ + 1, [] => []
  | fuel + 1, l => l.take bs :: toBatches bs fuel (l.drop bs)

/-- The batches of query indices built by `ProMis.solve`:
`for index in range(0, number_of_queries, batch_size)` with the inner loop
breaking at `number_of_queries`, i.e. the chunks of `range M` of size
`batch_size`.  (With `batch_size = 0` the Python `range` raises; the model is
only used with `1 ≤ batch_size`.) -/
def batches (M bs : Nat) : List (List Nat) :=
  toBatches bs M (List.range M)

/-- The program built for one batch: the background logic plus, per index,
its query followed by one distributional clause per relation, and a blank
line.  Each relation is abstracted as its `index_to_distributional_clause`
emitter. -/
def programFor (logic : String) (relations : List (Nat → String))
    (batch : List Nat) : String :=
  batch.foldl
    (fun acc index =>
      relations.foldl (fun a rel => a ++ rel index) (acc ++ queryString index) ++ "\n")
    (logic ++ "\n")

/-- The embedding of `ProMis.solve` (promis.py, lines 42-121): emit one
program per batch, hand each program to the solver (the worker pool yields
results in submission order), flatten, and write the flattened list into the
`v0` column of a copy of the target collection. -/
def ProMis.solve {α : Type} (solver : String → List α)
    (target : CartesianCollection α) (logic : String)
    (relations : List (Nat → String)) (bs : Nat) : CartesianCollection α :=
  let M := target.points.length
  { target with
    values := ((batches M bs).map (fun b => solver (programFor logic relations b))).flatten }

/-! ### Spatial relations (`src/promis/logic/spatial/relation.py`, `over.py`) -/

/-- A `ScalarRelation` after `__init__`: a collection of (mean, variance)
pairs, the related location type and the Problog name. -/
structure ScalarRelation where
  parameters : CartesianCollection (ℚ × ℚ)
  locationType : Option String
  problogName : String
deriving Repr

/-- The constructor `ScalarRelation.__init__` (relation.py, lines 112-123):
stores the attributes and clips the variance column from below,
`clip(v1, enforced_min_variance, None)`, with default
`enforced_min_variance = 0.001`. -/
def ScalarRelation.init (parameters : CartesianCollection (ℚ × ℚ))
    (locationType : Option String) (problogName : String)
    (enforcedMinVariance : ℚ) : ScalarRelation :=
  { parameters :=
      { parameters with
        values := parameters.values.map (fun p => (p.1, max p.2 enforcedMinVariance)) }
    locationType := locationType
    problogName := problogName }

/-- `ScalarRelation.index_to_distributional_clause` (relation.py, lines
151-161).  `render` abstracts the decimal formatting Python applies to the
stored floats inside the f-string; indexing out of range raises in numpy and
is modelled with a default. -/
def ScalarRelation.index_to_distributional_clause (r : ScalarRelation)
    (render : ℚ → String) (index : Nat) : String :=
  let entry := r.parameters.values.getD index (0, 0)
  let relation :=
    match r.locationType with
    | none => r.problogName ++ "(x_" ++ toString index ++ ")"
    | some t => r.problogName ++ "(x_" ++ toString index ++ ", " ++ t ++ ")"
  let distribution := "normal(" ++ render entry.1 ++ ", " ++ render entry.2 ++ ")"
  relation ++ " ~ " ++ distribution ++ ".\n"

/-- The Bernoulli relation `Over` (over.py): a collection whose `v0` column
holds the per-point success probability. -/
structure OverRelation where
  parameters : CartesianCollection ℚ
  locationType : Option String
deriving Repr

/-- `Over.index_to_distributional_clause` (over.py, lines 23-24):
`f"{v0[index]}::over(x_{index}, {self.location_type})."` plus a newline.
Python prints a `None` location type as the text `None`. -/
def OverRelation.index_to_distributional_clause (r : OverRelation)
    (render : ℚ → String) (index : Nat) : String :=
  render (r.parameters.values.getD index 0) ++ "::over(x_" ++ toString index ++ ", "
    ++ (match r.locationType with | some t => t | none => "None") ++ ").\n"

/-- `ScalarRelation.__lt__` (relation.py, lines 125-143): the probability
that the relation value is below `value`, one normal CDF evaluation per
point.  `cdf value mean variance` abstracts
`norm.cdf(value, loc=mean, scale=sqrt(variance))`; both source branches
(raster band or plain collection) produce a collection over the same points
with the CDF values in `v0`. -/
def ScalarRelation.lt (r : ScalarRelation) (cdf : ℚ → ℚ → ℚ → ℚ)
    (value : ℚ) : CartesianCollection ℚ :=
  { origin := r.parameters.origin
    points := r.parameters.points
    values := r.parameters.values.map (fun p => cdf value p.1 p.2) }

/-- `ScalarRelation.__gt__` (relation.py, lines 145-149): evaluate `self <
value` and replace `v0` by `1.0 - v0`. -/
def ScalarRelation.gt (r : ScalarRelation) (cdf : ℚ → ℚ → ℚ → ℚ)
    (value : ℚ) : CartesianCollection ℚ :=
  let probabilities := r.lt cdf value
  { probabilities with values := probabilities.values.map (fun q => 1 - q) }

/-! ### StaR Map support-point computation (`src/promis/star_map.py`) -/

/-- The per-slot store `{relation_name → {location_type → collection}}`,
with each collection the list of (support point, parameters) rows appended
so far.  The fitted approximators are not modelled. -/
def Store (Loc Params : Type) : Type := String → Option String → List (Loc × Params)

/-- Appending rows to one (relation, location_type) slot, leaving every other
slot unchanged (`info["collection"].append(...)`). -/
def slotAppend {Loc Params : Type} (store : Store Loc Params) (rel : String)
    (lt : Option String) (new : List (Loc × Params)) : Store Loc Params :=
  fun r t => if r = rel ∧ t = lt then store r t ++ new else store r t

/-- The embedding of `StaRMap.add_support_points` (star_map.py, lines
414-477).  Abstracted collaborators: `uamFilter` is `self.uam.filter`
returning the features of one location type; `perturb k` is the positional
perturbation drawn for random map `k` (`typed_map.sample`); `kernel rel maps
loc` is `relation_name_to_class(rel).compute_parameters(loc, r_trees)` over
the sampled maps, with `none` modelling a raised exception; `sentinel rel` is
`relation_name_to_class(rel).empty_map_parameters()`.  Returns the updated
store and the list of (relation, location_type) diagnostics printed by the
exception handler.  The final `self.fit(what)` only rebuilds approximators,
which are not modelled. -/
def StaRMap.add_support_points {F Loc Params : Type}
    (uamFilter : Option String → List F) (perturb : Nat → F → F) (K : Nat)
    (kernel : String → List (List F) → Loc → Option Params)
    (sentinel : String → Params) (support : List Loc)
    (what : List (String × List (Option String))) (store : Store Loc Params) :
    Store Loc Params × List (String × Option String) :=
  let allLocationTypes := (what.map Prod.snd).flatten
  allLocationTypes.foldl
    (fun acc lt =>
      let typedMap := uamFilter lt
      let randomMaps := (List.range K).map (fun k => typedMap.map (perturb k))
      what.foldl
        (fun acc2 entry =>
          if lt ∈ entry.2 then
            if typedMap.isEmpty then
              (slotAppend acc2.1 entry.1 lt (support.map (fun l => (l, sentinel entry.1))),
                acc2.2)
            else
              match support.mapM (kernel entry.1 randomMaps) with
              | some values =>
                (slotAppend acc2.1 entry.1 lt (support.zip values), acc2.2)
              | none =>
                (slotAppend acc2.1 entry.1 lt (support.map (fun l => (l, sentinel entry.1))),
                  acc2.2 ++ [(entry.1, lt)])
          else acc2)
        acc)
    (store, [])

/-- The `target` property setter (star_map.py, lines 138-153): reject a
target whose origin differs from the UAM origin in any coordinate, otherwise
store the target.  Also run by `__init__` through `self.target = target`. -/
def StaRMap.setTarget {V : Type} (uamOrigin : ℚ × ℚ)
    (target : CartesianCollection V) : Except String (CartesianCollection V) :=
  if target.origin.1 ≠ uamOrigin.1 ∨ target.origin.2 ≠ uamOrigin.2 then
    Except.error "StaRMap target and UAM must have the same origin"
  else
    Except.ok target

/-! ### Helper lemmas about the matchers -/

theorem dropLit_append (p r : List Char) : dropLit p (p ++ r) = some r := by
  induction p with
  | nil => rfl
  | cons c cs ih => simp [dropLit, ih]

theorem dropLit_some :
    ∀ (p s r : List Char), dropLit p s = some r → r <:+ s ∧ p.length + r.length = s.length := by
  intro p
  induction p with
  | nil =>
    intro s r h
    simp only [dropLit, Option.some.injEq] at h
    subst h
    exact ⟨List.suffix_refl _, by simp⟩
  | cons c cs ih =>
    intro s r h
    cases s with
    | nil => simp [dropLit] at h
    | cons d ds =>
      simp only [dropLit] at h
      split at h
      · obtain ⟨h1, h2⟩ := ih ds r h
        exact ⟨h1.trans (List.suffix_cons d ds), by simp [← h2]; omega⟩
      · exact absurd h (by simp)

theorem takeWhile_ne_nil_head (p : Char → Bool) (c : Char) (cs : List Char)
    (h : ((c :: cs).takeWhile p).isEmpty = false) : p c = true := by
  by_cases hc : p c
  · exact hc
  · simp [List.takeWhile_cons_of_neg hc] at h

theorem matchGroup_some :
    ∀ (s g rest : List Char), matchGroup s = some (g, rest) →
      rest <:+ s ∧ rest.length < s.length := by
  intro s g rest h
  cases s with
  | nil => simp [matchGroup] at h
  | cons c cs =>
    simp only [matchGroup] at h
    split at h
    · split at h
      · split at h
        · rename_i x d r2 hdw hdq
          simp only [Option.some.injEq, Prod.mk.injEq] at h
          obtain ⟨-, hrest⟩ := h
          subst hrest
          have hsuf : d :: r2 <:+ cs := hdw ▸ List.dropWhile_suffix isWordChar
          have h2 : r2 <:+ cs := (List.suffix_cons d r2).trans hsuf
          refine ⟨h2.trans (List.suffix_cons c cs), ?_⟩
          have := hsuf.length_le
          simp at this ⊢
          omega
        · simp at h
      · simp at h
    · split at h
      · simp at h
      · rename_i hw
        simp only [Option.some.injEq, Prod.mk.injEq] at h
        obtain ⟨-, hrest⟩ := h
        subst hrest
        have hc : isWordChar c = true := takeWhile_ne_nil_head isWordChar c cs (by simpa using hw)
        rw [List.dropWhile_cons_of_pos hc]
        have hsuf : cs.dropWhile isWordChar <:+ cs := List.dropWhile_suffix isWordChar
        refine ⟨hsuf.trans (List.suffix_cons c cs), ?_⟩
        have := hsuf.length_le
        simp
        omega

theorem matchRelOne_some {name : List Char} :
    ∀ (s v rest : List Char), matchRelOne name s = some (v, rest) →
      rest <:+ s ∧ rest.length < s.length := by
  intro s v rest h
  simp only [matchRelOne] at h
  cases hd : dropLit (name ++ ['(', 'X', ')']) s with
  | none => rw [hd] at h; exact absurd h (by simp)
  | some r =>
    rw [hd] at h
    simp only [Option.some.injEq, Prod.mk.injEq] at h
    obtain ⟨-, hrest⟩ := h
    subst hrest
    obtain ⟨h1, h2⟩ := dropLit_some _ _ _ hd
    exact ⟨h1, by simp at h2; omega⟩

theorem matchRelTwo_some {name : List Char} :
    ∀ (s g rest : List Char), matchRelTwo name s = some (g, rest) →
      rest <:+ s ∧ rest.length < s.length := by
  intro s g rest h
  simp only [matchRelTwo] at h
  split at h
  · simp at h
  · rename_i s1 hd
    split at h
    · simp at h
    · rename_i g2 s3 hg
      split at h
      · rename_i r4 hdw
        simp only [Option.some.injEq, Prod.mk.injEq] at h
        obtain ⟨-, hrest⟩ := h
        subst hrest
        obtain ⟨hs1, hlen1⟩ := dropLit_some _ _ _ hd
        obtain ⟨hs3, hlen3⟩ := matchGroup_some _ _ _ hg
        have hsw : s1.dropWhile isSpaceChar <:+ s1 := List.dropWhile_suffix isSpaceChar
        have hs4 : ')' :: r4 <:+ s3 := hdw ▸ List.dropWhile_suffix isSpaceChar
        have hr : r4 <:+ s3 := (List.suffix_cons ')' r4).trans hs4
        refine ⟨((hr.trans hs3).trans hsw).trans hs1, ?_⟩
        have l1 := hs4.length_le
        have l2 := hsw.length_le
        simp at hlen1 l1
        omega
      · simp at h

theorem relMatcher_some (name : String) (arity : RelArity) :
    ∀ (s v rest : List Char), relMatcher name arity s = some (v, rest) →
      rest <:+ s ∧ rest.length < s.length := by
  intro s v rest h
  cases arity with
  | one => exact matchRelOne_some s v rest h
  | two => exact matchRelTwo_some s v rest h

/-! ### Lemmas about the finditer scan -/

theorem reScanFuel_nil {β : Type} (m : List Char → Option (β × List Char)) :
    ∀ fuel, reScanFuel m fuel [] = [] := by
  intro fuel
  cases fuel <;> rfl

theorem reScanFuel_stable {β : Type} (m : List Char → Option (β × List Char)) :
    ∀ (f g : Nat) (s : List Char), s.length ≤ f → s.length ≤ g →
      reScanFuel m f s = reScanFuel m g s := by
  intro f
  induction f with
  | zero =>
    intro g s hf _
    have hs : s = [] := List.length_eq_zero.mp (Nat.le_zero.mp hf)
    subst hs
    rw [reScanFuel_nil, reScanFuel_nil]
  | succ f ih =>
    intro g s hf hg
    cases s with
    | nil => rw [reScanFuel_nil, reScanFuel_nil]
    | cons c tail =>
      cases g with
      | zero => simp at hg
      | succ g =>
        cases hm : m (c :: tail) with
        | none =>
          simp only [reScanFuel, hm]
          exact ih g tail (by simp at hf; omega) (by simp at hg; omega)
        | some vr =>
          obtain ⟨v, rest⟩ := vr
          simp only [reScanFuel, hm]
          congr 1
          apply ih
          · simp only [List.length_drop]
            simp at hf
            omega
          · simp only [List.length_drop]
            simp at hg
            omega

theorem suffix_drop_eq {α : Type} {r l : List α} (h : r <:+ l) :
    l.drop (l.length - r.length) = r := by
  obtain ⟨t, ht⟩ := h
  subst ht
  have hlen : (t ++ r).length - r.length = t.length := by simp
  rw [hlen, List.drop_left]

theorem reScan_cons_none {β : Type} (m : List Char → Option (β × List Char))
    (c : Char) (tail : List Char) (hm : m (c :: tail) = none) :
    reScan m (c :: tail) = reScan m tail := by
  show reScanFuel m (c :: tail).length (c :: tail) = _
  simp only [List.length_cons, reScanFuel, hm]
  rfl

theorem reScan_cons_some {β : Type} (m : List Char → Option (β × List Char))
    {c : Char} {tail rest : List Char} {v : β}
    (hm : m (c :: tail) = some (v, rest)) (hsuf : rest <:+ c :: tail)
    (hlen : rest.length < (c :: tail).length) :
    reScan m (c :: tail) = v :: reScan m rest := by
  have htail : rest <:+ tail := by
    rcases List.suffix_cons_iff.mp hsuf with h | h
    · subst h
      simp at hlen
    · exact h
  show reScanFuel m (c :: tail).length (c :: tail) = _
  simp only [List.length_cons, reScanFuel, hm]
  rw [suffix_drop_eq htail]
  congr 1
  exact reScanFuel_stable m tail.length rest.length rest htail.length_le (Nat.le_refl _)

theorem reScanPosFuel_map_snd {β : Type} (m : List Char → Option (β × List Char)) :
    ∀ (fuel pos : Nat) (s : List Char),
      (reScanPosFuel m fuel pos s).map Prod.snd = reScanFuel m fuel s := by
  intro fuel
  induction fuel with
  | zero => intro pos s; rfl
  | succ fuel ih =>
    intro pos s
    cases s with
    | nil => rfl
    | cons c tail =>
      cases hm : m (c :: tail) with
      | none =>
        simp only [reScanPosFuel, reScanFuel, hm]
        exact ih (pos + 1) tail
      | some vr =>
        obtain ⟨v, rest⟩ := vr
        simp only [reScanPosFuel, reScanFuel, hm, List.map_cons]
        rw [ih]

theorem reScanPosFuel_lb {β : Type} (m : List Char → Option (β × List Char)) :
    ∀ (fuel pos : Nat) (s : List Char) (q : Nat × β),
      q ∈ reScanPosFuel m fuel pos s → pos ≤ q.1 := by
  intro fuel
  induction fuel with
  | zero => intro pos s q hq; simp [reScanPosFuel] at hq
  | succ fuel ih =>
    intro pos s q hq
    cases s with
    | nil => simp [reScanPosFuel] at hq
    | cons c tail =>
      cases hm : m (c :: tail) with
      | none =>
        simp only [reScanPosFuel, hm] at hq
        have := ih (pos + 1) tail q hq
        omega
      | some vr =>
        obtain ⟨v, rest⟩ := vr
        simp only [reScanPosFuel, hm, List.mem_cons] at hq
        rcases hq with hq | hq
        · subst hq
          exact Nat.le_refl _
        · have := ih _ _ q hq
          omega

theorem reScanPosFuel_pairwise {β : Type} (m : List Char → Option (β × List Char))
    (hm : ∀ (s : List Char) (v : β) (rest : List Char),
      m s = some (v, rest) → rest.length < s.length) :
    ∀ (fuel pos : Nat) (s : List Char),
      List.Pairwise (fun a b => a.1 < b.1) (reScanPosFuel m fuel pos s) := by
  intro fuel
  induction fuel with
  | zero => intro pos s; simp [reScanPosFuel]
  | succ fuel ih =>
    intro pos s
    cases s with
    | nil => simp [reScanPosFuel]
    | cons c tail =>
      cases hmm : m (c :: tail) with
      | none =>
        simp only [reScanPosFuel, hmm]
        exact ih (pos + 1) tail
      | some vr =>
        obtain ⟨v, rest⟩ := vr
        simp only [reScanPosFuel, hmm]
        rw [List.pairwise_cons]
        refine ⟨?_, ih _ _⟩
        intro q hq
        have h1 := reScanPosFuel_lb m fuel _ _ q hq
        have h2 := hm _ _ _ hmm
        simp only [List.length_cons] at h1 h2 ⊢
        omega

theorem reScanPos_map_snd {β : Type} (m : List Char → Option (β × List Char))
    (pos : Nat) (s : List Char) : (reScanPos m pos s).map Prod.snd = reScan m s :=
  reScanPosFuel_map_snd m s.length pos s

theorem reScanPos_pairwise {β : Type} (m : List Char → Option (β × List Char))
    (hm : ∀ (s : List Char) (v : β) (rest : List Char),
      m s = some (v, rest) → rest.length < s.length)
    (pos : Nat) (s : List Char) :
    List.Pairwise (fun a b => a.1 < b.1) (reScanPos m pos s) :=
  reScanPosFuel_pairwise m hm s.length pos s

/-! ### Lemmas about the batching pipeline of ProMis.solve -/

theorem toBatches_flatten (bs : Nat) (hbs : 1 ≤ bs) :
    ∀ (fuel : Nat) (l : List Nat), l.length ≤ fuel →
      (toBatches bs fuel l).flatten = l := by
  intro fuel
  induction fuel with
  | zero =>
    intro l hl
    have hnil : l = [] := List.length_eq_zero.mp (Nat.le_zero.mp hl)
    subst hnil
    rfl
  | succ fuel ih =>
    intro l hl
    cases l with
    | nil => rfl
    | cons x xs =>
      simp only [toBatches, List.flatten_cons]
      rw [ih]
      · exact List.take_append_drop _ _
      · simp only [List.length_drop, List.length_cons] at hl ⊢
        omega

theorem batches_flatten (M bs : Nat) (hbs : 1 ≤ bs) :
    (batches M bs).flatten = List.range M :=
  toBatches_flatten bs hbs M (List.range M) (by simp)

theorem solve_values {α : Type} (solver : String → List α) (oracle : String → α)
    (target : CartesianCollection α) (logic : String)
    (relations : List (Nat → String)) (bs : Nat) (hbs : 1 ≤ bs)
    (hsolver : ∀ b ∈ batches target.points.length bs,
      solver (programFor logic relations b) = b.map (fun i => oracle (queryString i))) :
    (ProMis.solve solver target logic relations bs).values
      = (List.range target.points.length).map (fun i => oracle (queryString i)) := by
  show ((batches target.points.length bs).map
      (fun b => solver (programFor logic relations b))).flatten = _
  rw [List.map_congr_left hsolver, ← List.map_flatten, batches_flatten _ _ hbs]

/-- C1: for every target collection with `M` points and every
`batch_size ≥ 1`, provided the solver returns, for each batched program, one
result per contained query in submission order, `ProMis.solve` returns a
collection over the same points with exactly `M` values in `v0`, and the
value at index `i` is the result of the query `query(landscape(x_i))` built
from target point `i`. -/
theorem promis_solve_output_matches_targets {α : Type} (solver : String → List α)
    (oracle : String → α) (target : CartesianCollection α) (logic : String)
    (relations : List (Nat → String)) (bs : Nat) (hbs : 1 ≤ bs)
    (hsolver : ∀ b ∈ batches target.points.length bs,
      solver (programFor logic relations b) = b.map (fun i => oracle (queryString i))) :
    (ProMis.solve solver target logic relations bs).points = target.points ∧
    (ProMis.solve solver target logic relations bs).values.length
      = target.points.length ∧
    ∀ i < target.points.length,
      (ProMis.solve solver target logic relations bs).values[i]?
        = some (oracle (queryString i)) := by
  refine ⟨rfl, ?_, ?_⟩
  · rw [solve_values solver oracle target logic relations bs hbs hsolver]
    simp
  · intro i hi
    rw [solve_values solver oracle target logic relations bs hbs hsolver]
    rw [List.getElem?_map, List.getElem?_range hi]
    rfl

/-- Witness for C1: three target points, batch size two, and a solver that
answers the two emitted programs with the per-query results. -/
theorem promis_solve_output_matches_targets_witness :
    (ProMis.solve
        (fun p => if p = programFor "m." [] [0, 1]
          then [queryString 0, queryString 1] else [queryString 2])
        { origin := (0, 0), points := [(0, 0), (1, 1), (2, 2)], values := ["", "", ""] }
        "m." [] 2).points = [((0 : ℚ), (0 : ℚ)), (1, 1), (2, 2)] ∧
    (ProMis.solve
        (fun p => if p = programFor "m." [] [0, 1]
          then [queryString 0, queryString 1] else [queryString 2])
        { origin := (0, 0), points := [(0, 0), (1, 1), (2, 2)], values := ["", "", ""] }
        "m." [] 2).values.length = 3 ∧
    ∀ i < 3,
      (ProMis.solve
          (fun p => if p = programFor "m." [] [0, 1]
            then [queryString 0, queryString 1] else [queryString 2])
          { origin := (0, 0), points := [(0, 0), (1, 1), (2, 2)], values := ["", "", ""] }
          "m." [] 2).values[i]? = some ((fun q => q) (queryString i)) :=
  promis_solve_output_matches_targets
    (fun p => if p = programFor "m." [] [0, 1]
      then [queryString 0, queryString 1] else [queryString 2])
    (fun q => q)
    { origin := (0, 0), points := [(0, 0), (1, 1), (2, 2)], values := ["", "", ""] }
    "m." [] 2 (by omega) (by decide)

/-- C3 counterexample: on a program that interleaves two relation names, the
scanner groups the output by relation name, which differs from the source
order of the occurrences (here computed by the spec-faithful single scan);
this holds for every iteration order of the three-name registry, since the
two `over` occurrences surround the `distance` occurrence in the text. -/
theorem mentionedRelations_not_source_order :
    mentionedRelations defaultRegistry "over(X, a). distance(X, b). over(X, c)."
      = [("over", some "a"), ("over", some "c"), ("distance", some "b")] ∧
    mentionedRelationsSourceOrder defaultRegistry
        "over(X, a). distance(X, b). over(X, c)."
      = [("over", some "a"), ("distance", some "b"), ("over", some "c")] ∧
    mentionedRelations defaultRegistry "over(X, a). distance(X, b). over(X, c)."
      ≠ mentionedRelationsSourceOrder defaultRegistry
          "over(X, a). distance(X, b). over(X, c)." := by
  refine ⟨by decide, by decide, by decide⟩

/-- C3 amended: the scanner returns the mentioned (relation, location type)
pairs grouped by relation name in registry iteration order, and within each
relation name the occurrences appear in source order (strictly increasing
match positions), duplicates kept. -/
theorem mentionedRelations_grouped_by_name (registry : List (String × RelArity))
    (logic : String) :
    mentionedRelations registry logic
      = (registry.map
          (fun e => (scanRelationPos logic.toList e.1 e.2).map Prod.snd)).flatten ∧
    ∀ e ∈ registry,
      List.Pairwise (fun a b => a.1 < b.1) (scanRelationPos logic.toList e.1 e.2) := by
  constructor
  · unfold mentionedRelations
    congr 1
    apply List.map_congr_left
    intro e _
    unfold scanRelation scanRelationPos
    rw [← reScanPos_map_snd (relMatcher e.1 e.2) 0 logic.toList, List.filterMap_map,
      List.map_filterMap]
    congr 1
    funext pg
    cases h : relEmit e.1 e.2 pg.2 <;> simp [h, Function.comp]
  · intro e _
    unfold scanRelationPos
    rw [List.pairwise_filterMap]
    have hp := reScanPos_pairwise (relMatcher e.1 e.2)
      (fun s v rest h => (relMatcher_some e.1 e.2 s v rest h).2) 0 logic.toList
    refine hp.imp ?_
    intro a b hab x hx y hy
    simp only [Option.mem_def, Option.map_eq_some'] at hx hy
    obtain ⟨v, -, rfl⟩ := hx
    obtain ⟨w, -, rfl⟩ := hy
    exact hab

/-- Witness for C3 amended, at the registry and the program of the
counterexample. -/
theorem mentionedRelations_grouped_by_name_witness :
    mentionedRelations defaultRegistry "over(X, a). distance(X, b). over(X, c)."
      = (defaultRegistry.map
          (fun e =>
            (scanRelationPos
              ("over(X, a). distance(X, b). over(X, c).").toList e.1 e.2).map
              Prod.snd)).flatten ∧
    ∀ e ∈ defaultRegistry,
      List.Pairwise (fun a b => a.1 < b.1)
        (scanRelationPos ("over(X, a). distance(X, b). over(X, c).").toList e.1 e.2) :=
  mentionedRelations_grouped_by_name defaultRegistry
    "over(X, a). distance(X, b). over(X, c)."

/-! ### Exact-match evaluation lemmas for the arity-2 pattern -/

theorem toList_mk (l : List Char) : (String.mk l).toList = l := rfl

theorem isSpaceChar_not_word {c : Char} (h : isSpaceChar c = true) :
    isWordChar c = false := by
  simp only [isSpaceChar, Bool.or_eq_true, beq_iff_eq] at h
  rcases h with ((((h | h) | h) | h) | h) | h <;> subst h <;> decide

theorem isWordChar_not_space {c : Char} (h : isWordChar c = true) :
    isSpaceChar c = false := by
  cases hx : isSpaceChar c
  · rfl
  · rw [isSpaceChar_not_word hx] at h
    exact Bool.noConfusion h

theorem takeWhile_spaces_paren (sp tail : List Char)
    (hsp : ∀ c ∈ sp, isSpaceChar c = true) :
    (sp ++ (')' :: tail)).takeWhile isWordChar = [] := by
  cases sp with
  | nil => rw [List.nil_append, List.takeWhile_cons_of_neg (by decide)]
  | cons c s =>
    have hc : isWordChar c = false := isSpaceChar_not_word (hsp c (by simp))
    rw [List.cons_append, List.takeWhile_cons_of_neg (by simp [hc])]

theorem dropWhile_spaces_paren (sp tail : List Char)
    (hsp : ∀ c ∈ sp, isSpaceChar c = true) :
    (sp ++ (')' :: tail)).dropWhile isWordChar = sp ++ (')' :: tail) := by
  cases sp with
  | nil => rw [List.nil_append, List.dropWhile_cons_of_neg (by decide)]
  | cons c s =>
    have hc : isWordChar c = false := isSpaceChar_not_word (hsp c (by simp))
    rw [List.cons_append, List.dropWhile_cons_of_neg (by simp [hc])]

theorem matchGroup_bareword (w R : List Char) (hw0 : w ≠ [])
    (hw : ∀ c ∈ w, isWordChar c = true)
    (hR1 : R.takeWhile isWordChar = []) (hR2 : R.dropWhile isWordChar = R) :
    matchGroup (w ++ R) = some (w, R) := by
  cases w with
  | nil => exact absurd rfl hw0
  | cons wc w' =>
    have hwc : isWordChar wc = true := hw wc (by simp)
    have hq : wc ≠ quoteChar := by
      intro h
      subst h
      exact absurd hwc (by decide)
    show matchGroup (wc :: (w' ++ R)) = _
    simp only [matchGroup]
    rw [if_neg hq]
    have ht : ((wc :: w') ++ R).takeWhile isWordChar = wc :: w' := by
      rw [List.takeWhile_append_of_pos hw, hR1, List.append_nil]
    have hd : ((wc :: w') ++ R).dropWhile isWordChar = R := by
      rw [List.dropWhile_append_of_pos hw, hR2]
    rw [List.cons_append] at ht hd
    rw [ht, hd]
    simp

theorem matchGroup_quoted (w R : List Char) (hw : ∀ c ∈ w, isWordChar c = true) :
    matchGroup (quoteChar :: (w ++ (quoteChar :: R)))
      = some (quoteChar :: (w ++ [quoteChar]), R) := by
  simp only [matchGroup, if_true]
  have hdw : (w ++ (quoteChar :: R)).dropWhile isWordChar = quoteChar :: R := by
    rw [List.dropWhile_append_of_pos hw, List.dropWhile_cons_of_neg (by decide)]
  have htw : (w ++ (quoteChar :: R)).takeWhile isWordChar = w := by
    rw [List.takeWhile_append_of_pos hw, List.takeWhile_cons_of_neg (by decide),
      List.append_nil]
  rw [hdw, htw]
  simp

theorem matchRelTwo_exact (nm sp1 mid sp2 tail g : List Char)
    (hsp1 : ∀ c ∈ sp1, isSpaceChar c = true) (hsp2 : ∀ c ∈ sp2, isSpaceChar c = true)
    (hmid : matchGroup (mid ++ (sp2 ++ (')' :: tail))) = some (g, sp2 ++ (')' :: tail)))
    (hmid0 : mid ≠ [])
    (hmidhead : ∀ c, mid.head? = some c → isSpaceChar c = false) :
    matchRelTwo nm ((nm ++ ['(', 'X', ',']) ++ (sp1 ++ (mid ++ (sp2 ++ (')' :: tail)))))
      = some (g, tail) := by
  have hdw1 : (sp1 ++ (mid ++ (sp2 ++ (')' :: tail)))).dropWhile isSpaceChar
      = mid ++ (sp2 ++ (')' :: tail)) := by
    rw [List.dropWhile_append_of_pos hsp1]
    cases mid with
    | nil => exact absurd rfl hmid0
    | cons mc mid' =>
      have hmc : isSpaceChar mc = false := hmidhead mc (by simp)
      rw [List.cons_append, List.dropWhile_cons_of_neg (by simp [hmc])]
  have hdw2 : (sp2 ++ (')' :: tail)).dropWhile isSpaceChar = ')' :: tail := by
    rw [List.dropWhile_append_of_pos hsp2, List.dropWhile_cons_of_neg (by decide)]
  simp only [matchRelTwo, dropLit_append, hdw1, hmid, hdw2]

theorem reScan_single {β : Type} (m : List Char → Option (β × List Char))
    (s : List Char) (v : β) (hm : m s = some (v, [])) (hs : s ≠ []) :
    reScan m s = [v] := by
  cases s with
  | nil => exact absurd rfl hs
  | cons c tail =>
    rw [reScan_cons_some m hm (List.nil_suffix) (by simp)]
    rfl

theorem stripQuotes_bare (w : List Char) (hw0 : w ≠ [])
    (hw : ∀ c ∈ w, isWordChar c = true) : stripQuotes w = w := by
  cases w with
  | nil => exact absurd rfl hw0
  | cons c w' =>
    have hc := hw c (by simp)
    have h1 : c ≠ quoteChar := by
      intro h
      subst h
      exact absurd hc (by decide)
    have h2 : c ≠ dquoteChar := by
      intro h
      subst h
      exact absurd hc (by decide)
    simp [stripQuotes, h1, h2]

theorem stripQuotes_quoted (w : List Char) :
    stripQuotes (quoteChar :: (w ++ [quoteChar])) = w := by
  simp [stripQuotes]

theorem relMatcher_two (name : String) :
    relMatcher name RelArity.two = matchRelTwo name.toList := rfl

/-- C4 counterexample: a double-quoted second argument is not matched by the
regex (its branches accept only a single-quoted or bareword atom), and
whitespace before the comma is not tolerated (the pattern requires the comma
to directly follow `X`), so neither occurrence is extracted although the
claim says both are. -/
theorem mentionedRelations_rejects_dquote_and_ws :
    mentionedRelations defaultRegistry "distance(X, \"abc\")" = [] ∧
    mentionedRelations defaultRegistry "distance(X ,abc)" = [] :=
  ⟨by decide, by decide⟩

/-- C2: every variance entry (column `v1`) of a `ScalarRelation` constructed
with the default minimum variance `0.001` is at least `1e-3`, at every
index. -/
theorem scalarRelation_variance_clipped (parameters : CartesianCollection (ℚ × ℚ))
    (locationType : Option String) (problogName : String) (i : Nat)
    (hi : i < (ScalarRelation.init parameters locationType problogName
      (1/1000)).parameters.values.length) :
    1/1000 ≤ ((ScalarRelation.init parameters locationType problogName
      (1/1000)).parameters.values.getD i (0, 0)).2 := by
  simp only [ScalarRelation.init, List.length_map] at hi
  simp only [ScalarRelation.init, List.getD_eq_getElem?_getD, List.getElem?_map,
    List.getElem?_eq_getElem hi, Option.map_some', Option.getD_some]
  exact le_max_right _ _

/-- Witness for C2: one support point with raw variance `0`. -/
theorem scalarRelation_variance_clipped_witness :
    1/1000 ≤ ((ScalarRelation.init
      { origin := (0, 0), points := [(1, 2)], values := [(5, 0)] }
      none "distance" (1/1000)).parameters.values.getD 0 (0, 0)).2 :=
  scalarRelation_variance_clipped
    { origin := (0, 0), points := [(1, 2)], values := [(5, 0)] }
    none "distance" 0 (by decide)

/-- C9: the emitted distributional clauses are exactly the claimed strings
with an LF terminator: `name(x_i, type) ~ normal(mean, variance).` for a
scalar relation with a location type, the two-argument form dropped when the
location type is `None`, and `p::over(x_i, type).` for the Bernoulli relation
`over`. -/
theorem distributional_clause_format (P : CartesianCollection (ℚ × ℚ))
    (Q : CartesianCollection ℚ) (name t : String) (render : ℚ → String) (i : Nat) :
    ({ parameters := P, locationType := some t, problogName := name }
        : ScalarRelation).index_to_distributional_clause render i
      = (name ++ "(x_" ++ toString i ++ ", " ++ t ++ ")") ++ " ~ "
        ++ ("normal(" ++ render (P.values.getD i (0, 0)).1 ++ ", "
          ++ render (P.values.getD i (0, 0)).2 ++ ")") ++ ".\n" ∧
    ({ parameters := P, locationType := none, problogName := name }
        : ScalarRelation).index_to_distributional_clause render i
      = (name ++ "(x_" ++ toString i ++ ")") ++ " ~ "
        ++ ("normal(" ++ render (P.values.getD i (0, 0)).1 ++ ", "
          ++ render (P.values.getD i (0, 0)).2 ++ ")") ++ ".\n" ∧
    ({ parameters := Q, locationType := some t }
        : OverRelation).index_to_distributional_clause render i
      = render (Q.values.getD i 0) ++ "::over(x_" ++ toString i ++ ", " ++ t
        ++ ").\n" :=
  ⟨rfl, rfl, rfl⟩

/-- C10: the greater-than comparison of a scalar relation is the pointwise
complement of the less-than comparison, over the same points. -/
theorem gt_is_complement_of_lt (r : ScalarRelation) (cdf : ℚ → ℚ → ℚ → ℚ)
    (value : ℚ) :
    (r.gt cdf value).points = (r.lt cdf value).points ∧
    (r.gt cdf value).origin = (r.lt cdf value).origin ∧
    ∀ i : Nat, (r.gt cdf value).values[i]?
      = ((r.lt cdf value).values[i]?).map (fun q => 1 - q) := by
  refine ⟨rfl, rfl, ?_⟩
  intro i
  show ((r.lt cdf value).values.map (fun q => 1 - q))[i]? = _
  rw [List.getElem?_map]

/-- C8: assigning a target whose origin differs from the UAM origin fails
with the origin-mismatch error; with equal origins the target is stored. -/
theorem starMap_target_origin_check {V : Type} (uamOrigin : ℚ × ℚ)
    (target : CartesianCollection V) :
    (target.origin ≠ uamOrigin → StaRMap.setTarget uamOrigin target
      = Except.error "StaRMap target and UAM must have the same origin") ∧
    (target.origin = uamOrigin →
      StaRMap.setTarget uamOrigin target = Except.ok target) := by
  constructor
  · intro h
    have hc : target.origin.1 ≠ uamOrigin.1 ∨ target.origin.2 ≠ uamOrigin.2 := by
      by_contra hcc
      push_neg at hcc
      exact h (Prod.ext hcc.1 hcc.2)
    unfold StaRMap.setTarget
    rw [if_pos hc]
  · intro h
    have hc : ¬(target.origin.1 ≠ uamOrigin.1 ∨ target.origin.2 ≠ uamOrigin.2) := by
      push_neg
      exact ⟨congrArg Prod.fst h, congrArg Prod.snd h⟩
    unfold StaRMap.setTarget
    rw [if_neg hc]

/-- Witness for C8: mismatching origins are rejected, equal origins are
accepted. -/
theorem starMap_target_origin_check_witness :
    StaRMap.setTarget ((0 : ℚ), (0 : ℚ))
        { origin := ((1 : ℚ), (2 : ℚ)), points := [], values := ([] : List ℚ) }
      = Except.error "StaRMap target and UAM must have the same origin" ∧
    StaRMap.setTarget ((0 : ℚ), (0 : ℚ))
        { origin := ((0 : ℚ), (0 : ℚ)), points := [], values := ([] : List ℚ) }
      = Except.ok { origin := ((0 : ℚ), (0 : ℚ)), points := [], values := ([] : List ℚ) } :=
  ⟨(starMap_target_origin_check _ _).1 (by decide),
    (starMap_target_origin_check _ _).2 rfl⟩

/-! ### Lemmas about add_support_points -/

theorem add_support_points_single {F Loc Params : Type}
    (uamFilter : Option String → List F) (perturb : Nat → F → F) (K : Nat)
    (kernel : String → List (List F) → Loc → Option Params)
    (sentinel : String → Params) (support : List Loc)
    (rel : String) (lt : Option String) (store : Store Loc Params) :
    StaRMap.add_support_points uamFilter perturb K kernel sentinel support
        [(rel, [lt])] store
      = if (uamFilter lt).isEmpty then
          (slotAppend store rel lt (support.map (fun l => (l, sentinel rel))), [])
        else
          match support.mapM (kernel rel ((List.range K).map
              (fun k => (uamFilter lt).map (perturb k)))) with
          | some values => (slotAppend store rel lt (support.zip values), [])
          | none =>
            (slotAppend store rel lt (support.map (fun l => (l, sentinel rel))),
              [(rel, lt)]) := by
  unfold StaRMap.add_support_points
  simp only [List.map_cons, List.map_nil, List.flatten_cons, List.flatten_nil,
    List.append_nil, List.foldl_cons, List.foldl_nil]
  rw [if_pos (List.mem_singleton.mpr rfl)]
  rfl

/-- C5 counterexample: a previously stored support point of the slot keeps
its old parameters when kernel evaluation fails during a later
`add_support_points` call, so the slot does not revert entirely to the
sentinel; only the points of the failing call receive it. -/
theorem kernel_failure_keeps_old_points :
    ¬ (∀ e ∈ (StaRMap.add_support_points (fun _ => [()]) (fun _ f => f) 1
        (fun _ _ _ => (none : Option Nat)) (fun _ => 0) [1]
        [("distance", [some "road"])]
        (fun r t => if r = "distance" ∧ t = some "road"
          then [((0 : Nat), (5 : Nat))] else [])).1 "distance" (some "road"),
      e.2 = 0) := by decide

/-- C5 amended: when kernel evaluation raises for some support location of a
(relation, location type) slot, the sentinel parameters are appended for all
support points of the current call (previously stored rows of the slot are
left unchanged, as the prefix of the updated collection), a diagnostic is
emitted, other slots are untouched, and the exception is not propagated. -/
theorem kernel_failure_appends_defaults {F Loc Params : Type}
    (uamFilter : Option String → List F) (perturb : Nat → F → F) (K : Nat)
    (kernel : String → List (List F) → Loc → Option Params)
    (sentinel : String → Params) (support : List Loc)
    (rel : String) (lt : Option String) (store : Store Loc Params)
    (hne : (uamFilter lt).isEmpty = false)
    (hfail : support.mapM (kernel rel ((List.range K).map
      (fun k => (uamFilter lt).map (perturb k)))) = none) :
    (StaRMap.add_support_points uamFilter perturb K kernel sentinel support
        [(rel, [lt])] store).1 rel lt
      = store rel lt ++ support.map (fun l => (l, sentinel rel)) ∧
    (StaRMap.add_support_points uamFilter perturb K kernel sentinel support
        [(rel, [lt])] store).2 = [(rel, lt)] ∧
    ∀ (r : String) (t : Option String), ¬(r = rel ∧ t = lt) →
      (StaRMap.add_support_points uamFilter perturb K kernel sentinel support
        [(rel, [lt])] store).1 r t = store r t := by
  rw [add_support_points_single, hne]
  simp only [Bool.false_eq_true, if_false, hfail]
  refine ⟨?_, trivial, ?_⟩
  · simp [slotAppend]
  · intro r t hrt
    simp only [slotAppend]
    rw [if_neg hrt]

/-- Witness for C5 amended: one old support point, one new one, a kernel
that always raises. -/
theorem kernel_failure_appends_defaults_witness :
    (StaRMap.add_support_points (fun _ => [()]) (fun _ f => f) 1
        (fun _ _ _ => (none : Option Nat)) (fun _ => 0) [1]
        [("distance", [some "road"])]
        (fun r t => if r = "distance" ∧ t = some "road"
          then [((0 : Nat), (5 : Nat))] else [])).1 "distance" (some "road")
      = (fun r t => if r = "distance" ∧ t = some "road"
          then [((0 : Nat), (5 : Nat))] else []) "distance" (some "road")
        ++ [1].map (fun l => (l, (fun _ : String => (0 : Nat)) "distance")) ∧
    (StaRMap.add_support_points (fun _ => [()]) (fun _ f => f) 1
        (fun _ _ _ => (none : Option Nat)) (fun _ => 0) [1]
        [("distance", [some "road"])]
        (fun r t => if r = "distance" ∧ t = some "road"
          then [((0 : Nat), (5 : Nat))] else [])).2 = [("distance", some "road")] ∧
    ∀ (r : String) (t : Option String), ¬(r = "distance" ∧ t = some "road") →
      (StaRMap.add_support_points (fun _ => [()]) (fun _ f => f) 1
          (fun _ _ _ => (none : Option Nat)) (fun _ => 0) [1]
          [("distance", [some "road"])]
          (fun r t => if r = "distance" ∧ t = some "road"
            then [((0 : Nat), (5 : Nat))] else [])).1 r t
        = (fun r t => if r = "distance" ∧ t = some "road"
            then [((0 : Nat), (5 : Nat))] else []) r t :=
  kernel_failure_appends_defaults (fun _ => [()]) (fun _ f => f) 1
    (fun _ _ _ => (none : Option Nat)) (fun _ => 0) [1] "distance" (some "road")
    (fun r t => if r = "distance" ∧ t = some "road"
      then [((0 : Nat), (5 : Nat))] else [])
    (by decide) (by decide)

/-- C6: when the UAM filtered to the requested location type has no features,
the sentinel parameters are appended for every support point of the slot, no
diagnostic is emitted, the result does not depend on the perturbation or the
kernel (no Monte-Carlo sampling and no kernel evaluation take place), and
`solve` still returns a landscape with one value per target point under the
solver contract. -/
theorem empty_filtered_map_uses_sentinel {F Loc Params : Type}
    (uamFilter : Option String → List F) (perturb : Nat → F → F) (K : Nat)
    (kernel : String → List (List F) → Loc → Option Params)
    (sentinel : String → Params) (support : List Loc)
    (rel : String) (lt : Option String) (store : Store Loc Params)
    (hempty : (uamFilter lt).isEmpty = true) :
    (StaRMap.add_support_points uamFilter perturb K kernel sentinel support
        [(rel, [lt])] store).1 rel lt
      = store rel lt ++ support.map (fun l => (l, sentinel rel)) ∧
    (StaRMap.add_support_points uamFilter perturb K kernel sentinel support
        [(rel, [lt])] store).2 = [] ∧
    (∀ (perturbB : Nat → F → F)
      (kernelB : String → List (List F) → Loc → Option Params),
      StaRMap.add_support_points uamFilter perturbB K kernelB sentinel support
          [(rel, [lt])] store
        = StaRMap.add_support_points uamFilter perturb K kernel sentinel support
            [(rel, [lt])] store) ∧
    (∀ (solver : String → List ℚ) (oracle : String → ℚ)
      (target : CartesianCollection ℚ) (logic : String)
      (emitters : List (Nat → String)) (bs : Nat), 1 ≤ bs →
      (∀ b ∈ batches target.points.length bs,
        solver (programFor logic emitters b)
          = b.map (fun i => oracle (queryString i))) →
      (ProMis.solve solver target logic emitters bs).values.length
        = target.points.length) := by
  refine ⟨?_, ?_, ?_, ?_⟩
  · rw [add_support_points_single, hempty]
    simp [slotAppend]
  · rw [add_support_points_single, hempty]
    simp
  · intro perturbB kernelB
    rw [add_support_points_single, add_support_points_single, hempty]
    simp
  · intro solver oracle target logic emitters bs hbs hsolver
    rw [solve_values solver oracle target logic emitters bs hbs hsolver]
    simp

/-- Witness for C6: an empty filtered map, two support points, sentinel 9. -/
theorem empty_filtered_map_uses_sentinel_witness :
    (StaRMap.add_support_points (fun _ => ([] : List Unit)) (fun _ f => f) 2
        (fun _ _ _ => (none : Option Nat)) (fun _ => 9) [1, 2]
        [("distance", [some "road"])] (fun _ _ => [])).1 "distance" (some "road")
      = (fun _ _ => ([] : List (Nat × Nat))) "distance" (some "road")
        ++ [1, 2].map (fun l => (l, (fun _ : String => (9 : Nat)) "distance")) ∧
    (StaRMap.add_support_points (fun _ => ([] : List Unit)) (fun _ f => f) 2
        (fun _ _ _ => (none : Option Nat)) (fun _ => 9) [1, 2]
        [("distance", [some "road"])] (fun _ _ => [])).2 = [] ∧
    (∀ (perturbB : Nat → Unit → Unit)
      (kernelB : String → List (List Unit) → Nat → Option Nat),
      StaRMap.add_support_points (fun _ => ([] : List Unit)) perturbB 2 kernelB
          (fun _ => 9) [1, 2] [("distance", [some "road"])] (fun _ _ => [])
        = StaRMap.add_support_points (fun _ => ([] : List Unit)) (fun _ f => f) 2
            (fun _ _ _ => (none : Option Nat)) (fun _ => 9) [1, 2]
            [("distance", [some "road"])] (fun _ _ => [])) ∧
    (∀ (solver : String → List ℚ) (oracle : String → ℚ)
      (target : CartesianCollection ℚ) (logic : String)
      (emitters : List (Nat → String)) (bs : Nat), 1 ≤ bs →
      (∀ b ∈ batches target.points.length bs,
        solver (programFor logic emitters b)
          = b.map (fun i => oracle (queryString i))) →
      (ProMis.solve solver target logic emitters bs).values.length
        = target.points.length) :=
  empty_filtered_map_uses_sentinel (fun _ => ([] : List Unit)) (fun _ f => f) 2
    (fun _ _ _ => (none : Option Nat)) (fun _ => 9) [1, 2] "distance" (some "road")
    (fun _ _ => []) rfl

/-- C7 supporting theorem: with the argument shape `add_support_points`
actually accepts (a mapping of relation names to location types), a call on
`N` fresh support points grows the slot by exactly `N` (here from one stored
row to three).  The `auto_improve` in the source never reaches this point:
it passes `[relation]` and `[location_type]` as two separate positional
arguments, which does not match the signature
`add_support_points(support, number_of_random_maps, what)`. -/
theorem add_support_points_growth_intended :
    ((StaRMap.add_support_points (fun _ => [()]) (fun _ f => f) 3
        (fun _ _ l => some (l, l)) (fun _ => ((0 : Nat), (0 : Nat))) [10, 20]
        [("distance", [some "road"])]
        (fun r t => if r = "distance" ∧ t = some "road"
          then [((7 : Nat), ((1 : Nat), (2 : Nat)))] else [])).1 "distance"
        (some "road")).length = 1 + 2 := by decide

/-! ### Soundness and completeness machinery for the arity-2 scanner -/

theorem dropLit_some_eq :
    ∀ (p s r : List Char), dropLit p s = some r → s = p ++ r := by
  intro p
  induction p with
  | nil =>
    intro s r h
    simp only [dropLit, Option.some.injEq] at h
    subst h
    rfl
  | cons c cs ih =>
    intro s r h
    cases s with
    | nil => simp [dropLit] at h
    | cons d ds =>
      simp only [dropLit] at h
      split at h
      · rename_i hcd
        subst hcd
        rw [List.cons_append, ih ds r h]
      · exact absurd h (by simp)

theorem matchRelTwo_starts_with_literal (nm : List Char) :
    ∀ (s g rest : List Char), matchRelTwo nm s = some (g, rest) →
      (nm ++ ['(', 'X', ',']) <+: s := by
  intro s g rest h
  unfold matchRelTwo at h
  split at h
  · simp at h
  · rename_i s1 hd
    exact ⟨s1, (dropLit_some_eq _ _ _ hd).symm⟩

theorem matchRelTwo_none_of_not_prefix (nm s : List Char)
    (h : ¬ ((nm ++ ['(', 'X', ',']) <+: s)) : matchRelTwo nm s = none := by
  cases hm : matchRelTwo nm s with
  | none => rfl
  | some gr => exact absurd (matchRelTwo_starts_with_literal nm s gr.1 gr.2 (by simpa using hm)) h

theorem reScan_inert_nil {β : Type} (m : List Char → Option (β × List Char)) :
    ∀ (s : List Char), (∀ v, v <:+ s → v ≠ [] → m v = none) → reScan m s = [] := by
  intro s
  induction s with
  | nil => intro _; rfl
  | cons c cs ih =>
    intro h
    rw [reScan_cons_none m c cs (h (c :: cs) (List.suffix_refl _) (by simp))]
    exact ih (fun v hv hne => h v (hv.trans (List.suffix_cons c cs)) hne)

theorem reScan_append_inert {β : Type} (m : List Char → Option (β × List Char)) :
    ∀ (sep t : List Char), (∀ v, v <:+ sep → v ≠ [] → m (v ++ t) = none) →
      reScan m (sep ++ t) = reScan m t := by
  intro sep
  induction sep with
  | nil => intro t _; rfl
  | cons c cs ih =>
    intro t h
    have hm0 : m ((c :: cs) ++ t) = none := h (c :: cs) (List.suffix_refl _) (by simp)
    rw [List.cons_append] at hm0
    show reScan m ((c :: cs) ++ t) = _
    rw [List.cons_append, reScan_cons_none m c (cs ++ t) hm0]
    exact ih t (fun v hv hne => h v (hv.trans (List.suffix_cons c cs)) hne)

theorem reScan_matchRelTwo_cons {nm s g rest : List Char}
    (h : matchRelTwo nm s = some (g, rest)) :
    reScan (matchRelTwo nm) s = g :: reScan (matchRelTwo nm) rest := by
  obtain ⟨hsuf, hlen⟩ := matchRelTwo_some s g rest h
  cases s with
  | nil => simp at hlen
  | cons c tail => exact reScan_cons_some _ h hsuf hlen

theorem inertChunk_spec (name : String) (sep t : List Char)
    (h : inertChunk name sep t = true) :
    ∀ v, v <:+ sep → v ≠ [] → matchRelTwo name.toList (v ++ t) = none := by
  intro v hv hne
  apply matchRelTwo_none_of_not_prefix
  have h2 := (List.all_eq_true.mp h) v ((List.mem_tails v sep).mpr hv)
  intro hp
  have h4 : (name.toList ++ ['(', 'X', ',']).isPrefixOf (v ++ t) = true :=
    List.isPrefixOf_iff_prefix.mpr hp
  rw [h4] at h2
  simp at h2
  exact hne h2

theorem matchRelTwo_atom (nm sp1 mid sp2 tail : List Char)
    (hsp1 : ∀ c ∈ sp1, isSpaceChar c = true) (hsp2 : ∀ c ∈ sp2, isSpaceChar c = true)
    (hatom : isAtomArg mid = true) :
    matchRelTwo nm ((nm ++ ['(', 'X', ',']) ++ (sp1 ++ (mid ++ (sp2 ++ (')' :: tail)))))
      = some (mid, tail) := by
  cases mid with
  | nil => simp [isAtomArg] at hatom
  | cons c cs =>
    by_cases hc : c = quoteChar
    · subst hc
      rw [isAtomArg, if_pos rfl, Bool.and_eq_true, beq_iff_eq] at hatom
      obtain ⟨hlast, hwall⟩ := hatom
      have hw : ∀ x ∈ cs.dropLast, isWordChar x = true := List.all_eq_true.mp hwall
      have hcs0 : cs ≠ [] := by
        intro h
        subst h
        simp at hlast
      have hgl : cs.getLast hcs0 = quoteChar := by
        have h2 := List.getLast?_eq_getLast cs hcs0
        rw [h2] at hlast
        exact Option.some.inj hlast
      have hcs : cs = cs.dropLast ++ [quoteChar] := by
        conv_lhs => rw [← List.dropLast_concat_getLast hcs0]
        rw [hgl]
      have hg0 := matchGroup_quoted cs.dropLast (sp2 ++ (')' :: tail)) hw
      have hshape : (quoteChar :: cs) ++ (sp2 ++ (')' :: tail))
          = quoteChar :: (cs.dropLast ++ (quoteChar :: (sp2 ++ (')' :: tail)))) := by
        rw [List.cons_append]
        congr 1
        conv_lhs => rw [hcs]
        rw [List.append_assoc, List.singleton_append]
      have hmid : matchGroup ((quoteChar :: cs) ++ (sp2 ++ (')' :: tail)))
          = some (quoteChar :: cs, sp2 ++ (')' :: tail)) := by
        rw [hshape, hg0, ← hcs]
      exact matchRelTwo_exact nm sp1 (quoteChar :: cs) sp2 tail (quoteChar :: cs)
        hsp1 hsp2 hmid (by simp)
        (by
          intro d hd
          simp at hd
          subst hd
          decide)
    · rw [isAtomArg, if_neg hc] at hatom
      have hw : ∀ x ∈ c :: cs, isWordChar x = true := List.all_eq_true.mp hatom
      exact matchRelTwo_exact nm sp1 (c :: cs) sp2 tail (c :: cs) hsp1 hsp2
        (matchGroup_bareword (c :: cs) _ (by simp) hw
          (takeWhile_spaces_paren sp2 tail hsp2) (dropWhile_spaces_paren sp2 tail hsp2))
        (by simp)
        (by
          intro d hd
          simp at hd
          subst hd
          exact isWordChar_not_space (hw c (by simp)))

theorem stripQuotes_atomValue (mid : List Char) (hatom : isAtomArg mid = true) :
    stripQuotes mid = atomValue mid := by
  cases mid with
  | nil => rfl
  | cons c cs =>
    by_cases hc : c = quoteChar
    · subst hc
      simp [stripQuotes, atomValue]
    · rw [isAtomArg, if_neg hc] at hatom
      have hw : ∀ x ∈ c :: cs, isWordChar x = true := List.all_eq_true.mp hatom
      have h2 : c ≠ dquoteChar := by
        intro h
        subst h
        exact absurd (hw dquoteChar (by simp)) (by decide)
      rw [stripQuotes, atomValue, if_neg (by simp [hc, h2]), if_neg hc]

theorem filterMap_all_some {α β : Type} (f : α → Option β) (g : α → β) :
    ∀ (l : List α), (∀ a ∈ l, f a = some (g a)) → l.filterMap f = l.map g := by
  intro l
  induction l with
  | nil => intro _; rfl
  | cons a as ih =>
    intro h
    rw [List.filterMap_cons, h a (by simp), List.map_cons,
      ih (fun b hb => h b (by simp [hb]))]

theorem occChunk_append (name : String) (o : List Char × List Char × List Char)
    (t : List Char) :
    occChunk name o ++ t
      = (name.toList ++ ['(', 'X', ',']) ++ (o.1 ++ (o.2.1 ++ (o.2.2 ++ (')' :: t)))) := by
  simp [occChunk, List.append_assoc]

theorem reScan_buildProgram (name : String) :
    ∀ (occs : List (List Char × (List Char × List Char × List Char))) (final : List Char),
      (∀ o ∈ occs, (∀ c ∈ o.2.1, isSpaceChar c = true)
        ∧ isAtomArg o.2.2.1 = true ∧ (∀ c ∈ o.2.2.2, isSpaceChar c = true)) →
      sepsInert name occs final = true →
      reScan (matchRelTwo name.toList) (buildProgram name occs final)
        = occs.map (fun o => o.2.2.1) := by
  intro occs
  induction occs with
  | nil =>
    intro final _ hsep
    rw [sepsInert] at hsep
    show reScan (matchRelTwo name.toList) final = []
    apply reScan_inert_nil
    intro v hv hne
    have := inertChunk_spec name final [] hsep v hv hne
    simpa using this
  | cons so rest ih =>
    intro final hatom hsep
    rw [sepsInert, Bool.and_eq_true] at hsep
    obtain ⟨hsep1, hsep2⟩ := hsep
    show reScan (matchRelTwo name.toList)
        (so.1 ++ (occChunk name so.2 ++ buildProgram name rest final)) = _
    rw [reScan_append_inert (matchRelTwo name.toList) so.1
      (occChunk name so.2 ++ buildProgram name rest final)
      (inertChunk_spec name so.1 _ hsep1)]
    obtain ⟨ho1, ho2, ho3⟩ := hatom so (by simp)
    have hm : matchRelTwo name.toList (occChunk name so.2 ++ buildProgram name rest final)
        = some (so.2.2.1, buildProgram name rest final) := by
      rw [occChunk_append]
      exact matchRelTwo_atom name.toList so.2.1 so.2.2.1 so.2.2.2
        (buildProgram name rest final) ho1 ho3 ho2
    rw [reScan_matchRelTwo_cons hm, List.map_cons,
      ih final (fun o ho => hatom o (by simp [ho])) hsep2]

theorem reScanPosFuel_mem_match {β : Type} (m : List Char → Option (β × List Char))
    (hm : ∀ (s : List Char) (v : β) (rest : List Char),
      m s = some (v, rest) → rest.length < s.length) :
    ∀ (fuel pos : Nat) (s : List Char) (q : Nat × β), q ∈ reScanPosFuel m fuel pos s →
      ∃ rest, m (s.drop (q.1 - pos)) = some (q.2, rest) := by
  intro fuel
  induction fuel with
  | zero => intro pos s q hq; simp [reScanPosFuel] at hq
  | succ fuel ih =>
    intro pos s q hq
    cases s with
    | nil => simp [reScanPosFuel] at hq
    | cons c tail =>
      cases hmm : m (c :: tail) with
      | none =>
        simp only [reScanPosFuel, hmm] at hq
        have hlb := reScanPosFuel_lb m fuel (pos + 1) tail q hq
        obtain ⟨rest, hrest⟩ := ih (pos + 1) tail q hq
        refine ⟨rest, ?_⟩
        have harith : q.1 - pos = (q.1 - (pos + 1)) + 1 := by omega
        rw [harith, List.drop_succ_cons]
        exact hrest
      | some vr =>
        obtain ⟨v, rest⟩ := vr
        simp only [reScanPosFuel, hmm, List.mem_cons] at hq
        rcases hq with hq | hq
        · subst hq
          refine ⟨rest, ?_⟩
          simp only [Nat.sub_self, List.drop_zero]
          exact hmm
        · have hconsume := hm _ _ _ hmm
          have hlb := reScanPosFuel_lb m fuel _ _ q hq
          obtain ⟨r2, hr2⟩ := ih _ _ q hq
          refine ⟨r2, ?_⟩
          rw [List.drop_drop] at hr2
          have harith : q.1 - pos
              = ((tail.length - rest.length)
                + (q.1 - (pos + ((c :: tail).length - rest.length)))) + 1 := by
            simp only [List.length_cons] at hconsume hlb ⊢
            omega
          rw [harith, List.drop_succ_cons]
          exact hr2

/-- C4 amended: for a registered relation name `n` of arity 2, the scanner
extracts every occurrence of `n(X, T)` with `T` a bareword or single-quoted
atom.  Conjunct 1: on any program decomposed into separators (containing no
further start of the literal `n(X,`) and occurrences, the per-name scan
emits exactly one pair per occurrence, in order, with the quotes of `T`
removed and whitespace tolerated after the comma and before the closing
parenthesis.  Conjunct 2: for every registry, `mentionedRelations` is the
concatenation of these per-name scans.  Conjuncts 3 and 4: every successful
match, and hence every extracted pair, begins with the literal `n(X,`, so an
occurrence whose first argument is not literally `X` is never extracted
(double-quoted atoms and whitespace before the comma are rejected, per the
counterexample). -/
theorem mentionedRelations_extracts_arity_two
    (registry : List (String × RelArity)) (name : String)
    (occs : List (List Char × (List Char × List Char × List Char))) (final : List Char)
    (hland : name ≠ "landscape")
    (hatom : ∀ o ∈ occs, (∀ c ∈ o.2.1, isSpaceChar c = true)
      ∧ isAtomArg o.2.2.1 = true ∧ (∀ c ∈ o.2.2.2, isSpaceChar c = true))
    (hsep : sepsInert name occs final = true) :
    scanRelation (buildProgram name occs final) name RelArity.two
      = occs.map (fun o => (name, some (String.mk (atomValue o.2.2.1)))) ∧
    mentionedRelations registry (String.mk (buildProgram name occs final))
      = (registry.map
          (fun e => scanRelation (buildProgram name occs final) e.1 e.2)).flatten ∧
    (∀ (s g rest : List Char), matchRelTwo name.toList s = some (g, rest) →
      (name.toList ++ ['(', 'X', ',']) <+: s) ∧
    (∀ (logic : List Char) (p : Nat) (v : String × Option String),
      (p, v) ∈ scanRelationPos logic name RelArity.two →
      (name.toList ++ ['(', 'X', ',']) <+: logic.drop p) := by
  refine ⟨?_, rfl, matchRelTwo_starts_with_literal name.toList, ?_⟩
  · unfold scanRelation
    rw [relMatcher_two, reScan_buildProgram name occs final hatom hsep,
      List.filterMap_map]
    apply filterMap_all_some
    intro o ho
    obtain ⟨-, hoatom, -⟩ := hatom o ho
    show relEmit name RelArity.two o.2.2.1
      = some (name, some (String.mk (atomValue o.2.2.1)))
    simp only [relEmit]
    rw [if_neg hland, stripQuotes_atomValue _ hoatom]
  · intro logic p v hv
    unfold scanRelationPos at hv
    obtain ⟨pg, hmem, hf⟩ := List.mem_filterMap.mp hv
    obtain ⟨pp, g⟩ := pg
    simp only [Option.map_eq_some'] at hf
    obtain ⟨v2, hv2, heq⟩ := hf
    have hp : pp = p := congrArg Prod.fst heq
    subst hp
    obtain ⟨rest, hmatch⟩ := reScanPosFuel_mem_match (relMatcher name RelArity.two)
      (fun s v rest h => (relMatcher_some name RelArity.two s v rest h).2)
      logic.length 0 logic (pp, g) hmem
    rw [relMatcher_two] at hmatch
    have hpre := matchRelTwo_starts_with_literal name.toList _ _ _ hmatch
    simpa using hpre

/-- Witness for C4 amended: two occurrences of `distance(X, T)` inside a
larger program, one bareword with a space after the comma, one single-quoted
with a space before the closing parenthesis, scanned with the full default
registry. -/
theorem mentionedRelations_extracts_arity_two_witness :
    scanRelation
        (buildProgram "distance"
          [("landscape(X) :- ".toList, ([' '], ['r', 'o', 'a', 'd'], [])),
           (" < 50, ".toList,
             ([], quoteChar :: (['c', 'i', 't', 'y'] ++ [quoteChar]), [' ']))]
          " > 2.".toList) "distance" RelArity.two
      = [("landscape(X) :- ".toList, (([' '] : List Char), ['r', 'o', 'a', 'd'],
            ([] : List Char))),
         (" < 50, ".toList,
           (([] : List Char), quoteChar :: (['c', 'i', 't', 'y'] ++ [quoteChar]),
             ([' '] : List Char)))].map
          (fun o => ("distance", some (String.mk (atomValue o.2.2.1)))) ∧
    mentionedRelations defaultRegistry
        (String.mk (buildProgram "distance"
          [("landscape(X) :- ".toList, ([' '], ['r', 'o', 'a', 'd'], [])),
           (" < 50, ".toList,
             ([], quoteChar :: (['c', 'i', 't', 'y'] ++ [quoteChar]), [' ']))]
          " > 2.".toList))
      = (defaultRegistry.map
          (fun e => scanRelation
            (buildProgram "distance"
              [("landscape(X) :- ".toList, ([' '], ['r', 'o', 'a', 'd'], [])),
               (" < 50, ".toList,
                 ([], quoteChar :: (['c', 'i', 't', 'y'] ++ [quoteChar]), [' ']))]
              " > 2.".toList) e.1 e.2)).flatten ∧
    (∀ (s g rest : List Char), matchRelTwo "distance".toList s = some (g, rest) →
      ("distance".toList ++ ['(', 'X', ',']) <+: s) ∧
    (∀ (logic : List Char) (p : Nat) (v : String × Option String),
      (p, v) ∈ scanRelationPos logic "distance" RelArity.two →
      ("distance".toList ++ ['(', 'X', ',']) <+: logic.drop p) :=
  mentionedRelations_extracts_arity_two defaultRegistry "distance"
    [("landscape(X) :- ".toList, ([' '], ['r', 'o', 'a', 'd'], [])),
     (" < 50, ".toList,
       ([], quoteChar :: (['c', 'i', 't', 'y'] ++ [quoteChar]), [' ']))]
    " > 2.".toList (by decide) (by decide) (by decide)
